import Mathlib

/-!
Verification of the One-Step-Uploader plugin core against its specification.

The TypeScript sources are shallowly embedded: strings are `String` /
`List Char`, the editor buffer is a `String`, the vault file tree is the
list of existing paths, injected collaborators (the storage client's
network transfer, the clock, the random source) are explicit parameters,
and JavaScript float arithmetic on image dimensions is modelled by exact
rational arithmetic.  Regular expressions from the sources are embedded
as executable matchers implementing the exact JavaScript semantics
(leftmost match, greedy / lazy quantifier backtracking) of the concrete
patterns appearing in the code.
-/

namespace OneStepUploader

/-! ### Generic character-list helpers -/

/-- Does `pat` occur at the head of `s`? (JavaScript `String.startsWith`.) -/
def startsWithL : List Char → List Char → Bool
  | [], _ => true
  | _ :: _, [] => false
  | p :: ps, c :: cs => p = c && startsWithL ps cs

/-- Does `pat` occur as a contiguous substring of `s`?
(JavaScript `String.includes`.) -/
def listContains : List Char → List Char → Bool
  | [], pat => startsWithL pat []
  | c :: t, pat =>
    if startsWithL pat (c :: t) then true else listContains t pat

/-- Maximal run of characters different from `stop`, plus the remainder
(the remainder is empty or begins with `stop`).  This is the shape of a
greedy `[^x]*` scan in a JavaScript regular expression. -/
def runUntil (stop : Char) : List Char → List Char × List Char
  | [] => ([], [])
  | c :: t =>
    if c = stop then ([], c :: t)
    else
      let r := runUntil stop t
      (c :: r.1, r.2)

theorem startsWithL_self_append (pat r : List Char) :
    startsWithL pat (pat ++ r) = true := by
  induction pat with
  | nil => rfl
  | cons c t ih => simp [startsWithL, ih]

theorem startsWithL_length_le {pat s : List Char}
    (h : startsWithL pat s = true) : pat.length ≤ s.length := by
  induction pat generalizing s with
  | nil => simp
  | cons p ps ih =>
    cases s with
    | nil => simp [startsWithL] at h
    | cons c cs =>
      simp only [startsWithL, Bool.and_eq_true] at h
      simpa using ih h.2

theorem startsWithL_eq_take {pat s : List Char}
    (h : startsWithL pat s = true) : s = pat ++ s.drop pat.length := by
  induction pat generalizing s with
  | nil => simp
  | cons p ps ih =>
    cases s with
    | nil => simp [startsWithL] at h
    | cons c cs =>
      simp only [startsWithL, Bool.and_eq_true, decide_eq_true_eq] at h
      simpa [h.1] using congrArg (List.cons c) (ih h.2)

theorem listContains_of_startsWithL {s pat : List Char}
    (h : startsWithL pat s = true) : listContains s pat = true := by
  cases s with
  | nil => simpa [listContains] using h
  | cons c t => simp [listContains, h]

theorem listContains_append_middle (a b c : List Char) :
    listContains (a ++ b ++ c) b = true := by
  induction a with
  | nil =>
    exact listContains_of_startsWithL
      (by simpa using startsWithL_self_append b c)
  | cons x xs ih =>
    have hs : (x :: xs) ++ b ++ c = x :: (xs ++ b ++ c) := by simp
    rw [hs, listContains]
    split
    · rfl
    · exact ih

theorem runUntil_append_eq (stop : Char) (l : List Char) :
    (runUntil stop l).1 ++ (runUntil stop l).2 = l := by
  induction l with
  | nil => rfl
  | cons c t ih =>
    by_cases h : c = stop
    · simp [runUntil, h]
    · simp [runUntil, h, ih]

theorem runUntil_of_append {stop : Char} {u : List Char}
    (h : ∀ c ∈ u, c ≠ stop) (r : List Char) :
    runUntil stop (u ++ stop :: r) = (u, stop :: r) := by
  induction u with
  | nil => simp [runUntil]
  | cons c t ih =>
    have hc : c ≠ stop := h c (by simp)
    have ht : ∀ x ∈ t, x ≠ stop := fun x hx => h x (by simp [hx])
    simp [runUntil, hc, ih ht]

theorem runUntil_fst_length_le (stop : Char) (l : List Char) :
    (runUntil stop l).1.length ≤ l.length := by
  conv_rhs => rw [← runUntil_append_eq stop l]
  simp

/-- Line terminators that a JavaScript `.` (dot) does not match. -/
def lineTerm (c : Char) : Bool :=
  c = '\n' || c = '\r' || c.toNat = 0x2028 || c.toNat = 0x2029

/-! ### src/utils/stringUtils.ts — `StringUtils.formatLink` and
`StringUtils.extractPath` -/

namespace StringUtils

/-- Embedding of `StringUtils.formatLink(url, text, isImage)`:
`` `${prefix}[${text}](${url})` `` with the marker `!` when `isImage`.
String interpolation is embedded as concatenation of the character
lists. -/
def formatLink (url text : String) (isImage : Bool) : String :=
  String.mk
    ((if isImage then ['!'] else [])
      ++ '[' :: (text.data ++ ']' :: '(' :: (url.data ++ [')'])))

/-- Lazy scan for ``.*?\]``: the characters before the first `]`, and the
remainder after that `]`; fails if a line terminator occurs first (a
JavaScript `.` does not match those) or if no `]` follows. -/
def lazyBrackSplit : List Char → Option (List Char × List Char)
  | [] => none
  | c :: t =>
    if c = ']' then some ([], t)
    else if lineTerm c then none
    else
      match lazyBrackSplit t with
      | some (g, r) => some (c :: g, r)
      | none => none

/-- Matcher for ``\[.*?\]\(([^)]+)\)`` anchored at the given position:
bracketed label (lazy, dot excludes line terminators), then `(`, then the
greedy non-`)` group (at least one character), then `)`.  Returns the
captured group. -/
def extractCore : List Char → Option (List Char)
  | '[' :: r =>
    match lazyBrackSplit r with
    | some (_, rest) =>
      match rest with
      | '(' :: r2 =>
        let vr := runUntil ')' r2
        match vr.2 with
        | ')' :: _ => if vr.1 = [] then none else some vr.1
        | _ => none
      | _ => none
    | none => none
  | _ => none

/-- Matcher for ``!?\[.*?\]\(([^)]+)\)`` anchored at the given position:
the greedy `!?` first tries to consume a `!`, then falls back. -/
def extractMatchAt (s : List Char) : Option (List Char) :=
  match s with
  | [] => extractCore []
  | c :: t =>
    if c = '!' then
      match extractCore t with
      | some g => some g
      | none => extractCore (c :: t)
    else extractCore (c :: t)

/-- Leftmost match over all start positions (JavaScript `String.match`
with a non-global regular expression). -/
def extractScan : List Char → Option (List Char)
  | [] => none
  | c :: t =>
    match extractMatchAt (c :: t) with
    | some g => some g
    | none => extractScan t

/-- Embedding of `StringUtils.extractPath(markdownLink)`: match the link
against `/!?\[.*?\]\(([^)]+)\)/` and return capture group 1. -/
def extractPath (markdownLink : String) : Option String :=
  match extractScan markdownLink.data with
  | some g => some (String.mk g)
  | none => none

end StringUtils

/-! ### src/utils/fileUtils.ts — `ImageUtils.calculateDimensions`
(identical code also at `ImageProcessor.calculateDimensions`) -/

/-- JavaScript `Math.round` on the exact rational value of the float
expression: round half up. -/
def jsRound (x : ℚ) : ℤ := ⌊x + 1 / 2⌋

namespace ImageUtils

/-- Embedding of `ImageUtils.calculateDimensions`.  The float products
`height * ratio` with `ratio = maxWidth / width` are modelled exactly in
`ℚ`. -/
def calculateDimensions (ow oh mw mh : ℤ) : ℤ × ℤ :=
  if mw = 0 ∧ mh = 0 then (ow, oh)
  else
    let p1 : ℤ × ℤ :=
      if 0 < mw ∧ mw < ow then
        (mw, jsRound ((oh : ℚ) * ((mw : ℚ) / (ow : ℚ))))
      else (ow, oh)
    if 0 < mh ∧ mh < p1.2 then
      (jsRound ((p1.1 : ℚ) * ((mh : ℚ) / (p1.2 : ℚ))), mh)
    else p1

/-- Reference two-pass definition, written from the specification's
words: clamp width to `maxWidth` recomputing height as
`round(h * maxWidth / w)`, then clamp the resulting height to
`maxHeight` recomputing width as `round(w' * maxHeight / h')`. -/
def specTwoPassDimensions (w h mw mh : ℤ) : ℤ × ℤ :=
  if mw = 0 ∧ mh = 0 then (w, h)
  else
    let q1 : ℤ × ℤ :=
      if 0 < mw ∧ mw < w then (mw, jsRound (((h : ℚ) * (mw : ℚ)) / (w : ℚ)))
      else (w, h)
    if 0 < mh ∧ mh < q1.2 then
      (jsRound (((q1.1 : ℚ) * (mh : ℚ)) / (q1.2 : ℚ)), mh)
    else q1

end ImageUtils

/-! ### Support lemmas for the link formatting round trip -/

theorem lazyBrackSplit_append {g : List Char}
    (h : ∀ c ∈ g, c ≠ ']' ∧ lineTerm c = false) (r : List Char) :
    StringUtils.lazyBrackSplit (g ++ ']' :: r) = some (g, r) := by
  induction g with
  | nil => simp [StringUtils.lazyBrackSplit]
  | cons c t ih =>
    have hc := h c (by simp)
    have ht : ∀ x ∈ t, x ≠ ']' ∧ lineTerm x = false :=
      fun x hx => h x (by simp [hx])
    simp [StringUtils.lazyBrackSplit, hc.1, hc.2, ih ht]

theorem extractCore_anchor {text url : List Char}
    (hc : ∀ c ∈ url, c ≠ ')') (hu : url ≠ [])
    (ht : ∀ c ∈ text, c ≠ ']' ∧ lineTerm c = false) :
    StringUtils.extractCore ('[' :: (text ++ ']' :: '(' :: (url ++ [')'])))
      = some url := by
  have hrun : runUntil ')' (url ++ ')' :: []) = (url, ')' :: []) :=
    runUntil_of_append hc []
  simp [StringUtils.extractCore, lazyBrackSplit_append ht, hrun, hu]

/-- C10: corrected round trip of `formatLink` and `extractPath`.  For a
non-empty `url` without `)` and a `text` without `]` **and without line
terminators** (the lazy `.*?` in `extractPath`'s pattern cannot cross a
line terminator, which the original claim overlooked),
`extractPath (formatLink url text isImage) = some url`. -/
theorem claim_C10_roundtrip_extract_format (url text : String) (isImage : Bool)
    (hu : url ≠ "") (hc : ∀ c ∈ url.data, c ≠ ')')
    (ht : ∀ c ∈ text.data, c ≠ ']' ∧ lineTerm c = false) :
    StringUtils.extractPath (StringUtils.formatLink url text isImage)
      = some url := by
  obtain ⟨u⟩ := url
  obtain ⟨t⟩ := text
  have hu' : u ≠ [] := by
    intro h
    exact hu (by simp [h])
  have hcore := @extractCore_anchor t u hc hu' ht
  cases isImage with
  | false =>
    have hdata : (StringUtils.formatLink ⟨u⟩ ⟨t⟩ false).data
        = '[' :: (t ++ ']' :: '(' :: (u ++ [')'])) := rfl
    simp only [StringUtils.extractPath, hdata, StringUtils.extractScan,
      StringUtils.extractMatchAt, hcore]
    simp
  | true =>
    have hdata : (StringUtils.formatLink ⟨u⟩ ⟨t⟩ true).data
        = '!' :: '[' :: (t ++ ']' :: '(' :: (u ++ [')'])) := rfl
    simp only [StringUtils.extractPath, hdata, StringUtils.extractScan,
      StringUtils.extractMatchAt]
    simp [hcore]

/-- C10 witness: the round trip evaluated at a concrete image link. -/
theorem claim_C10_witness :
    StringUtils.extractPath
        (StringUtils.formatLink "https://cdn/x.png" "alt" true)
      = some "https://cdn/x.png" :=
  claim_C10_roundtrip_extract_format "https://cdn/x.png" "alt" true
    (by decide) (by decide) (by decide)

/-- C10 counterexample: the claim as stated fails when the link text
contains a newline (which contains no `]`, so it satisfies the claim's
hypotheses): `extractPath` returns `none`, not the formatted url. -/
theorem claim_C10_counterexample :
    StringUtils.extractPath (StringUtils.formatLink "u" "a\nb" false) = none
      ∧ ("u" : String) ≠ ""
      ∧ (∀ c ∈ ("u" : String).data, c ≠ ')')
      ∧ (∀ c ∈ ("a\nb" : String).data, c ≠ ']') := by
  refine ⟨by decide, by decide, by decide, by decide⟩

/-- C5: `calculateDimensions` agrees with the specification's two-pass
reference definition on all non-negative inputs, and the end-to-end
scenario 4000×3000 within 1920×1080 yields width 1440, height 1080. -/
theorem claim_C5_calculateDimensions :
    (∀ w h mw mh : ℤ, 0 ≤ w → 0 ≤ h → 0 ≤ mw → 0 ≤ mh →
        ImageUtils.calculateDimensions w h mw mh
          = ImageUtils.specTwoPassDimensions w h mw mh)
      ∧ ImageUtils.calculateDimensions 4000 3000 1920 1080 = (1440, 1080) := by
  constructor
  · intro w h mw mh _ _ _ _
    simp only [ImageUtils.calculateDimensions, ImageUtils.specTwoPassDimensions,
      mul_div_assoc]
  · norm_num [ImageUtils.calculateDimensions, jsRound]

/-- C5 witness: the agreement applied at a concrete input. -/
theorem claim_C5_witness :
    ImageUtils.calculateDimensions 4000 3000 1920 1080
      = ImageUtils.specTwoPassDimensions 4000 3000 1920 1080 :=
  claim_C5_calculateDimensions.1 4000 3000 1920 1080
    (by norm_num) (by norm_num) (by norm_num) (by norm_num)

/-! ### Decimal rendering (`Nat.repr`): the `${counter}` and
`${timestamp}` interpolations in the sources -/

/-- Decimal digits of `n`, most significant first (specification of what
`Nat.toDigitsCore` computes at base 10). -/
def decDigits (n : Nat) : List Char :=
  if _h : n < 10 then [Nat.digitChar n]
  else decDigits (n / 10) ++ [Nat.digitChar (n % 10)]
decreasing_by exact Nat.div_lt_self (by omega) (by omega)

theorem toDigitsCore_eq_decDigits (fuel : Nat) :
    ∀ n ds, n < fuel →
      Nat.toDigitsCore 10 fuel n ds = decDigits n ++ ds := by
  induction fuel with
  | zero => intro n ds h; omega
  | succ f ih =>
    intro n ds h
    rw [Nat.toDigitsCore]
    by_cases h10 : n / 10 = 0
    · have hlt : n < 10 := by omega
      rw [if_pos h10, decDigits, dif_pos hlt, Nat.mod_eq_of_lt hlt]
      simp
    · have hge : ¬ n < 10 := by
        intro hcon
        exact h10 (Nat.div_eq_of_lt hcon)
      have hdiv : n / 10 < f := by
        have h1 : n / 10 < n := Nat.div_lt_self (by omega) (by omega)
        omega
      rw [if_neg h10, ih (n / 10) _ hdiv]
      conv_rhs => rw [decDigits]
      rw [dif_neg hge]
      simp

theorem repr_data_eq_decDigits (n : Nat) :
    (Nat.repr n).data = decDigits n := by
  show (Nat.toDigits 10 n).asString.data = decDigits n
  unfold Nat.toDigits
  rw [toDigitsCore_eq_decDigits (n + 1) n [] (Nat.lt_succ_self n)]
  simp [List.asString]

/-- Value of a most-significant-first decimal digit list. -/
def digitsVal (l : List Char) : Nat :=
  l.foldl (fun a c => 10 * a + (c.toNat - 48)) 0

theorem digitsVal_append_digit (l : List Char) (c : Char) :
    digitsVal (l ++ [c]) = 10 * digitsVal l + (c.toNat - 48) := by
  simp [digitsVal, List.foldl_append]

theorem digitsVal_decDigits (n : Nat) : digitsVal (decDigits n) = n := by
  induction n using Nat.strong_induction_on with
  | _ n ih =>
    by_cases h : n < 10
    · have hd : ∀ m, m < 10 → (Nat.digitChar m).toNat - 48 = m := by decide
      rw [decDigits, dif_pos h]
      simp [digitsVal, hd n h]
    · rw [decDigits, dif_neg h, digitsVal_append_digit,
        ih (n / 10) (Nat.div_lt_self (by omega) (by omega))]
      have hd : ∀ m, m < 10 → (Nat.digitChar m).toNat - 48 = m := by decide
      rw [hd (n % 10) (Nat.mod_lt n (by omega))]
      omega

theorem repr_data_injective {m n : Nat}
    (h : (Nat.repr m).data = (Nat.repr n).data) : m = n := by
  rw [repr_data_eq_decDigits, repr_data_eq_decDigits] at h
  have := congrArg digitsVal h
  rwa [digitsVal_decDigits, digitsVal_decDigits] at this

theorem decDigits_mem (n : Nat) :
    ∀ c ∈ decDigits n,
      c ∈ ['0', '1', '2', '3', '4', '5', '6', '7', '8', '9'] := by
  induction n using Nat.strong_induction_on with
  | _ n ih =>
    by_cases h : n < 10
    · rw [decDigits, dif_pos h]
      have hd : ∀ m, m < 10 →
          Nat.digitChar m ∈ ['0', '1', '2', '3', '4', '5', '6', '7', '8', '9'] := by
        decide
      intro c hc
      rw [List.mem_singleton] at hc
      exact hc ▸ hd n h
    · rw [decDigits, dif_neg h]
      intro c hc
      rcases List.mem_append.mp hc with h1 | h2
      · exact ih (n / 10) (Nat.div_lt_self (by omega) (by omega)) c h1
      · have hd : ∀ m, m < 10 →
            Nat.digitChar m ∈ ['0', '1', '2', '3', '4', '5', '6', '7', '8', '9'] := by
          decide
        rw [List.mem_singleton] at h2
        exact h2 ▸ hd (n % 10) (Nat.mod_lt n (by omega))

/-! ### src/utils/fileUtils.ts — `sanitizeFileName` and
`generateUniqueFileName` -/

/-- JavaScript `\s` character class (the whitespace set matched by
`/\s/`). -/
def jsWhitespace (c : Char) : Bool :=
  c.toNat = 32 || c.toNat = 9 || c.toNat = 10 || c.toNat = 13
    || c.toNat = 11 || c.toNat = 12 || c.toNat = 0xa0 || c.toNat = 0x1680
    || (0x2000 ≤ c.toNat && c.toNat ≤ 0x200a) || c.toNat = 0x2028
    || c.toNat = 0x2029 || c.toNat = 0x202f || c.toNat = 0x205f
    || c.toNat = 0x3000 || c.toNat = 0xfeff

/-- JavaScript `\w` character class: ASCII letters, digits, underscore. -/
def wordChar (c : Char) : Bool :=
  (97 ≤ c.toNat && c.toNat ≤ 122) || (65 ≤ c.toNat && c.toNat ≤ 90)
    || (48 ≤ c.toNat && c.toNat ≤ 57) || c.toNat = 95

/-- Characters surviving the strip `replace(/[^\w\s.-]/g, "")`. -/
def keepSanitize (c : Char) : Bool :=
  wordChar c || jsWhitespace c || c = '.' || c = '-'

/-- Embedding of `replace(/\s+/g, "_")`: each maximal whitespace run
becomes one underscore. -/
def collapseWs : List Char → List Char
  | [] => []
  | [c] => if jsWhitespace c then ['_'] else [c]
  | c :: d :: t =>
    if jsWhitespace c then
      (if jsWhitespace d then collapseWs (d :: t) else '_' :: collapseWs (d :: t))
    else c :: collapseWs (d :: t)

/-- Embedding of `sanitizeFileName`: strip characters outside
`[\w\s.-]`, collapse whitespace runs to `_`, truncate to 100
characters. -/
def sanitizeFileName (fileName : String) : String :=
  String.mk ((collapseWs (fileName.data.filter keepSanitize)).take 100)

/-- Split off the extension matched by `/\.([^/.]+)$/`: returns
`(baseName, ext)` with `ext = []` when the pattern does not match (then
`baseName` is the whole name, matching `replace(/\.[^/.]+$/, "")`). -/
def extSplit (fileName : List Char) : List Char × List Char :=
  let rev := fileName.reverse
  let run := rev.takeWhile (fun c => !(c = '.' || c = '/'))
  let rest := rev.dropWhile (fun c => !(c = '.' || c = '/'))
  match rest with
  | '.' :: restTail =>
    if run = [] then (fileName, []) else (restTail.reverse, run.reverse)
  | _ => (fileName, [])

/-- Embedding of `generateUniqueFileName(originalName, extension,
preserveOriginalName)`.  `Date.now()` and the base-36 random suffix of
`Math.random().toString(36).substring(2, 8)` are the explicit
parameters `timestamp` and `randomStr`. -/
def generateUniqueFileName (originalName extension : String)
    (preserveOriginalName : Bool) (timestamp : Nat) (randomStr : String) :
    String :=
  if preserveOriginalName = true ∧ originalName ≠ "" then
    String.mk
      ((sanitizeFileName (String.mk (extSplit originalName.data).1)).data
        ++ '_' :: (Nat.repr timestamp).data ++ '.' :: extension.data)
  else
    String.mk
      ("image_".data ++ (Nat.repr timestamp).data
        ++ '_' :: randomStr.data ++ '.' :: extension.data)

/-- Path separators and ASCII control characters. -/
def pathOrControl (c : Char) : Bool :=
  c.toNat = 47 || c.toNat = 92 || c.toNat < 32 || c.toNat = 127

theorem collapseWs_mem (l : List Char) :
    ∀ c ∈ collapseWs l, c = '_' ∨ (c ∈ l ∧ jsWhitespace c = false) := by
  induction l with
  | nil => intro c h; simp [collapseWs] at h
  | cons x xs ih =>
    intro c h
    cases xs with
    | nil =>
      by_cases hx : jsWhitespace x = true
      · simp [collapseWs, hx] at h
        exact Or.inl h
      · simp [collapseWs, hx] at h
        subst h
        exact Or.inr ⟨by simp, by simpa using hx⟩
    | cons d t =>
      by_cases hx : jsWhitespace x = true
      · by_cases hd : jsWhitespace d = true
        · simp only [collapseWs, hx, hd, if_true] at h
          rcases ih c h with h1 | h2
          · exact Or.inl h1
          · exact Or.inr ⟨by simp [h2.1], h2.2⟩
        · simp only [collapseWs, hx, hd, if_true, Bool.false_eq_true,
            if_false, List.mem_cons] at h
          rcases h with h1 | h1
          · exact Or.inl h1
          · rcases ih c h1 with h2 | h3
            · exact Or.inl h2
            · exact Or.inr ⟨by simp [h3.1], h3.2⟩
      · simp only [collapseWs, hx, Bool.false_eq_true, if_false,
          List.mem_cons] at h
        rcases h with h1 | h1
        · subst h1
          exact Or.inr ⟨by simp, by simpa using hx⟩
        · rcases ih c h1 with h2 | h3
          · exact Or.inl h2
          · exact Or.inr ⟨by simp [h3.1], h3.2⟩

theorem sanitizeFileName_chars (s : String) :
    ∀ c ∈ (sanitizeFileName s).data, pathOrControl c = false := by
  intro c hc
  have hc2 : c ∈ collapseWs (s.data.filter keepSanitize) :=
    List.mem_of_mem_take hc
  rcases collapseWs_mem _ c hc2 with h1 | h2
  · subst h1; decide
  · have hk : keepSanitize c = true := (List.mem_filter.mp h2.1).2
    have hw : jsWhitespace c = false := h2.2
    simp only [keepSanitize, Bool.or_eq_true, decide_eq_true_eq] at hk
    rcases hk with ((hk1 | hk1) | hk1) | hk1
    · simp only [wordChar, Bool.or_eq_true, Bool.and_eq_true,
        decide_eq_true_eq] at hk1
      simp only [pathOrControl, Bool.or_eq_false_iff, decide_eq_false_iff_not]
      omega
    · rw [hk1] at hw; cases hw
    · subst hk1; decide
    · subst hk1; decide

/-- C7: corrected guarantee for `generateUniqueFileName`.  The raw
`extension` (and the random suffix parameter) are interpolated
unsanitized, so the guarantee additionally requires them to be free of
path separators and control characters (the base-36 suffix the code
actually draws always is); under that proviso the generated name has no
path separator or control character.  The `sanitizeFileName` clauses
hold as claimed: `sanitize("a/b*c.txt") = "abc.txt"` and every output is
at most 100 characters. -/
theorem claim_C7_generateUniqueFileName :
    (∀ (name ext : String) (preserve : Bool) (ts : Nat) (rnd : String),
        (∀ c ∈ ext.data, pathOrControl c = false) →
        (∀ c ∈ rnd.data, pathOrControl c = false) →
        ∀ c ∈ (generateUniqueFileName name ext preserve ts rnd).data,
          pathOrControl c = false)
      ∧ sanitizeFileName "a/b*c.txt" = "abc.txt"
      ∧ (∀ s : String, (sanitizeFileName s).length ≤ 100) := by
  refine ⟨?_, by decide, ?_⟩
  · intro name ext preserve ts rnd hext hrnd c hc
    have hdlist : ∀ x ∈ ['0', '1', '2', '3', '4', '5', '6', '7', '8', '9'],
        pathOrControl x = false := by decide
    have hdigit : ∀ x ∈ (Nat.repr ts).data, pathOrControl x = false := by
      intro x hx
      rw [repr_data_eq_decDigits] at hx
      exact hdlist x (decDigits_mem ts x hx)
    unfold generateUniqueFileName at hc
    split at hc
    · simp only [List.mem_append, List.mem_cons, List.not_mem_nil,
        or_false] at hc
      rcases hc with (h | h | h) | h | h
      · exact sanitizeFileName_chars _ c h
      · subst h; decide
      · exact hdigit c h
      · subst h; decide
      · exact hext c h
    · simp only [List.mem_append, List.mem_cons, List.not_mem_nil,
        or_false] at hc
      rcases hc with (((h | h | h | h | h | h) | h) | h | h) | h | h
      · subst h; decide
      · subst h; decide
      · subst h; decide
      · subst h; decide
      · subst h; decide
      · subst h; decide
      · exact hdigit c h
      · subst h; decide
      · exact hrnd c h
      · subst h; decide
      · exact hext c h
  · intro s
    show ((collapseWs (s.data.filter keepSanitize)).take 100).length ≤ 100
    exact List.length_take_le 100 _

/-- C7 witness: the corrected guarantee at a concrete input. -/
theorem claim_C7_witness :
    ∀ c ∈ (generateUniqueFileName "My Pic.png" "webp" true 1700000000000
        "abc123").data, pathOrControl c = false :=
  claim_C7_generateUniqueFileName.1 "My Pic.png" "webp" true 1700000000000
    "abc123" (by decide) (by decide)

/-- C7 counterexample: the claim quantifies over **every** extension,
but the extension is interpolated raw, so extension `a/b` puts a path
separator into the generated name. -/
theorem claim_C7_counterexample :
    '/' ∈ (generateUniqueFileName "x" "a/b" false 0 "abc123").data := by
  decide

/-! ### src/repository/mediaRepository.ts — `MediaRepository.generateKey`
(identical code at `R2Uploader.generateUploadKey`) and
`MediaRepository.upload` with `R2Adapter` (src/adapter) -/

/-- Calendar date delivered by `new Date()`: `getFullYear()`,
`getMonth() + 1`, `getDate()`. -/
structure WallDate where
  year : Nat
  month : Nat
  day : Nat

/-- JavaScript `String.replace` with a plain string pattern: replace the
leftmost occurrence only. -/
def replaceFirst (pat repl : List Char) : List Char → List Char
  | [] => if startsWithL pat [] then repl else []
  | c :: t =>
    if startsWithL pat (c :: t) then repl ++ (c :: t).drop pat.length
    else c :: replaceFirst pat repl t

/-- Remove the maximal trailing run of `/` characters. -/
def dropTrailingSlashes : List Char → List Char
  | [] => []
  | c :: t =>
    let r := dropTrailingSlashes t
    if r = [] ∧ c = '/' then [] else c :: r

/-- Embedding of `replace(/^\/+|\/+$/g, "")`: the two alternatives of
that regular expression remove exactly the maximal leading and the
maximal trailing run of slashes. -/
def stripSlashes (l : List Char) : List Char :=
  dropTrailingSlashes (l.dropWhile (fun c => c = '/'))

/-- JavaScript `String(n).padStart(2, "0")`. -/
def pad2 (n : Nat) : List Char :=
  List.replicate (2 - (Nat.repr n).data.length) '0' ++ (Nat.repr n).data

/-- JavaScript `endsWith("/")` on a character list. -/
def lastIsSlash (l : List Char) : Bool := l.reverse.head? = some '/'

namespace MediaRepository

/-- Date-substituted, slash-stripped upload path of
`MediaRepository.generateKey`: `{year}`/`{month}`/`{day}` substituted
(first occurrence each, month and day zero-padded), then leading and
trailing slashes stripped. -/
def datePath (uploadPathPattern : String) (d : WallDate) : List Char :=
  stripSlashes
    (replaceFirst "{day}".data (pad2 d.day)
      (replaceFirst "{month}".data (pad2 d.month)
        (replaceFirst "{year}".data (Nat.repr d.year).data
          uploadPathPattern.data)))

/-- Embedding of `MediaRepository.generateKey(fileName)` (the
`uploadPathPattern` comes from the repository's config, the date from
`new Date()`): substitute the date tokens, strip leading/trailing
slashes, append `/` when the path is non-empty and does not already end
with one, then concatenate the file name. -/
def generateKey (uploadPathPattern fileName : String) (d : WallDate) :
    String :=
  let path := datePath uploadPathPattern d
  let path2 :=
    if path ≠ [] ∧ ¬ lastIsSlash path = true then path ++ ['/'] else path
  String.mk (path2 ++ fileName.data)

/-- Embedding of `MediaRepository.getContentType(format)`. -/
def getContentType (format : String) : String :=
  let f := String.mk (format.data.map Char.toLower)
  if f = "webp" then "image/webp"
  else if f = "avif" then "image/avif"
  else if f = "jpeg" then "image/jpeg"
  else if f = "jpg" then "image/jpeg"
  else if f = "png" then "image/png"
  else if f = "gif" then "image/gif"
  else "application/octet-stream"

/-- Embedding of `MediaRepository.constructPublicUrl(key)`:
`replace(/\/$/, "")` strips one trailing slash of the base url,
`replace(/^\//, "")` one leading slash of the key. -/
def constructPublicUrl (publicBaseUrl key : String) : String :=
  let b := match publicBaseUrl.data.reverse with
    | '/' :: r => r.reverse
    | _ => publicBaseUrl.data
  let k := match key.data with
    | '/' :: r => r
    | _ => key.data
  String.mk (b ++ '/' :: k)

end MediaRepository

/-- Settings consumed by the storage adapter (`R2Settings`). -/
structure R2Settings where
  r2Endpoint : String
  r2AccessKeyId : String
  r2SecretAccessKey : String
  r2Bucket : String
  r2Region : String

/-- Result type of `StorageAdapter.put` (`UploadResult` of the adapter
layer). -/
structure AdapterResult where
  success : Bool
  key : Option String
  error : Option String
deriving DecidableEq

/-- Repository-level result (`MediaUploadResult`). -/
structure MediaUploadResult where
  success : Bool
  url : Option String
  key : Option String
  error : Option String
deriving DecidableEq

namespace R2Adapter

/-- Does the adapter hold a client?  The adapter's set-up routine leaves
`client = null` exactly when access key id or secret access key is
missing (empty strings are falsy). -/
def hasClient (s : R2Settings) : Bool :=
  !(s.r2AccessKeyId = "") && !(s.r2SecretAccessKey = "")

/-- Embedding of `R2Adapter.isConfigured()`:
`!!(this.client && this.settings.r2Bucket)`. -/
def isConfigured (s : R2Settings) : Bool :=
  hasClient s && !(s.r2Bucket = "")

/-- Embedding of `R2Adapter.put(key, buffer, options)`.  The network
transfer performed by the storage SDK is the injected `transfer` oracle
(arguments: key and content type; `none` = success, `some msg` = the
error message of the caught exception).  The second component records
whether a transfer was attempted. -/
def put (s : R2Settings) (transfer : String → String → Option String)
    (key contentType : String) : AdapterResult × Bool :=
  if hasClient s = false then
    (⟨false, none, some "Adapter not initialized"⟩, false)
  else
    match transfer key contentType with
    | none => (⟨true, some key, none⟩, true)
    | some msg => (⟨false, none, some msg⟩, true)

end R2Adapter

namespace MediaRepository

/-- Configuration sub-view handed to the repository
(`MediaRepoConfig`). -/
structure Config where
  uploadPathPattern : String
  publicBaseUrl : String

/-- Embedding of `MediaRepository.upload(buffer, originalFileName,
format)` over the `R2Adapter`: guard on `isConfigured`, derive content
type and key, delegate to `put`, then build the public url.  The second
component records whether a transfer was attempted. -/
def upload (s : R2Settings) (cfg : Config)
    (transfer : String → String → Option String)
    (originalFileName format : String) (d : WallDate) :
    MediaUploadResult × Bool :=
  if R2Adapter.isConfigured s = false then
    (⟨false, none, none, some "Storage adapter is not configured"⟩, false)
  else
    let contentType := getContentType format
    let key := generateKey cfg.uploadPathPattern originalFileName d
    let ra := R2Adapter.put s transfer key contentType
    if ra.1.success = false then
      (⟨false, none, none, ra.1.error⟩, ra.2)
    else
      (⟨true, some (constructPublicUrl cfg.publicBaseUrl key), some key,
        none⟩, ra.2)

end MediaRepository

theorem dropTrailingSlashes_head (l : List Char) :
    dropTrailingSlashes l = []
      ∨ (dropTrailingSlashes l).head? = l.head? := by
  cases l with
  | nil => exact Or.inl rfl
  | cons c t =>
    rw [dropTrailingSlashes]
    split
    · exact Or.inl rfl
    · exact Or.inr rfl

theorem head?_append_of_ne_nil {α : Type} (a b : List α) (h : a ≠ []) :
    (a ++ b).head? = a.head? := by
  cases a with
  | nil => exact absurd rfl h
  | cons x xs => rfl

theorem dropTrailingSlashes_reverse_head (l : List Char) :
    (dropTrailingSlashes l).reverse.head? ≠ some '/' := by
  induction l with
  | nil => simp [dropTrailingSlashes]
  | cons c t ih =>
    rw [dropTrailingSlashes]
    split
    · simp
    · rename_i hcond
      by_cases hr : dropTrailingSlashes t = []
      · have hc : ¬ c = '/' := fun hc => hcond ⟨hr, hc⟩
        simp [hr, hc]
      · rw [List.reverse_cons,
          head?_append_of_ne_nil _ _ (by simpa using hr)]
        simpa using ih

theorem dropWhileSlash_head (l : List Char) :
    (l.dropWhile (fun c => c = '/')).head? ≠ some '/' := by
  induction l with
  | nil => simp
  | cons c t ih =>
    by_cases hc : c = '/'
    · simpa [List.dropWhile, hc] using ih
    · simp [List.dropWhile, hc]

theorem stripSlashes_head (l : List Char) :
    (stripSlashes l).head? ≠ some '/' := by
  unfold stripSlashes
  rcases dropTrailingSlashes_head (l.dropWhile (fun c => c = '/')) with
    h | h
  · simp [h]
  · rw [h]
    exact dropWhileSlash_head l

theorem stripSlashes_reverse_head (l : List Char) :
    (stripSlashes l).reverse.head? ≠ some '/' :=
  dropTrailingSlashes_reverse_head _

/-- C8: `generateKey` substitutes the date tokens (month and day
zero-padded), strips leading and trailing slashes, guarantees exactly
one trailing slash before the file name whenever the processed path is
non-empty, and on the fixed clock 2025-12-19 maps
`images/{year}/{month}` and `img.png` to exactly
`images/2025/12/img.png`. -/
theorem claim_C8_generateKey :
    MediaRepository.generateKey "images/{year}/{month}" "img.png"
        ⟨2025, 12, 19⟩ = "images/2025/12/img.png"
      ∧ (∀ (pattern fileName : String) (d : WallDate),
          MediaRepository.datePath pattern d ≠ [] →
            (MediaRepository.generateKey pattern fileName d).data
                = MediaRepository.datePath pattern d ++ '/' :: fileName.data
              ∧ (MediaRepository.datePath pattern d).head? ≠ some '/'
              ∧ (MediaRepository.datePath pattern d).reverse.head?
                  ≠ some '/') := by
  constructor
  · decide
  · intro pattern fileName d hne
    have hlast : ¬ lastIsSlash (MediaRepository.datePath pattern d) = true := by
      have := stripSlashes_reverse_head
        (replaceFirst "{day}".data (pad2 d.day)
          (replaceFirst "{month}".data (pad2 d.month)
            (replaceFirst "{year}".data (Nat.repr d.year).data
              pattern.data)))
      simpa [MediaRepository.datePath, lastIsSlash] using this
    refine ⟨?_, stripSlashes_head _, stripSlashes_reverse_head _⟩
    unfold MediaRepository.generateKey
    dsimp only
    rw [if_pos ⟨hne, hlast⟩]
    simp

/-- C8 witness: the general clause applied at a concrete pattern. -/
theorem claim_C8_witness :
    (MediaRepository.generateKey "up" "f.png" ⟨2025, 1, 2⟩).data
        = MediaRepository.datePath "up" ⟨2025, 1, 2⟩ ++ '/' :: "f.png".data
      ∧ (MediaRepository.datePath "up" ⟨2025, 1, 2⟩).head? ≠ some '/'
      ∧ (MediaRepository.datePath "up" ⟨2025, 1, 2⟩).reverse.head?
          ≠ some '/' :=
  claim_C8_generateKey.2 "up" "f.png" ⟨2025, 1, 2⟩ (by decide)

/-- C9: when the storage backend is not configured (missing access key,
secret, or bucket) the upload fails closed: `MediaRepository.upload`
returns `success = false` with the descriptive error message, no
transfer is attempted (for every transfer oracle), and likewise
`R2Adapter.put` short-circuits when no client was built.  Both
embeddings are total functions: nothing is thrown past the boundary. -/
theorem claim_C9_upload_fails_closed :
    (∀ (s : R2Settings) (cfg : MediaRepository.Config) transfer
        (fileName format : String) (d : WallDate),
        (s.r2AccessKeyId = "" ∨ s.r2SecretAccessKey = "" ∨ s.r2Bucket = "") →
          MediaRepository.upload s cfg transfer fileName format d
            = (⟨false, none, none,
                some "Storage adapter is not configured"⟩, false))
      ∧ (∀ (s : R2Settings) transfer (key contentType : String),
          R2Adapter.hasClient s = false →
            R2Adapter.put s transfer key contentType
              = (⟨false, none, some "Adapter not initialized"⟩, false)) := by
  constructor
  · intro s cfg transfer fileName format d h
    have hcfg : R2Adapter.isConfigured s = false := by
      rcases h with h | h | h <;>
        simp [R2Adapter.isConfigured, R2Adapter.hasClient, h]
    unfold MediaRepository.upload
    rw [if_pos hcfg]
  · intro s transfer key contentType h
    unfold R2Adapter.put
    rw [if_pos h]

/-! ### src/utils/stringUtils.ts `createLinkPattern` and
src/processor `LinkReplaceProcessor.process` -/

namespace LinkRegex

/-- Matcher for the tail ``path[^)]*\)`` of `createLinkPattern`'s
pattern, anchored at the start of `s`; returns the consumed length.
(`createLinkPattern` escapes every regex metacharacter of the path, so
the path is matched literally.) -/
def parenSuffix (path : List Char) (s : List Char) : Option Nat :=
  if startsWithL path s then
    match runUntil ')' (s.drop path.length) with
    | (v, ')' :: _) => some (path.length + v.length + 1)
    | _ => none
  else none

/-- Backtracking for the greedy ``[^)]*`` before the path: try the
longest prefix `u` first (the JavaScript engine's order), shrinking on
failure. -/
def parenTryAux (path s : List Char) : Nat → Option Nat
  | 0 => parenSuffix path s
  | u + 1 =>
    match parenSuffix path (s.drop (u + 1)) with
    | some k => some (u + 1 + k)
    | none => parenTryAux path s u

/-- Matcher for ``[^)]*path[^)]*\)`` anchored at the start of `s`. -/
def parenMatch (path s : List Char) : Option Nat :=
  parenTryAux path s (runUntil ')' s).1.length

/-- Matcher for ``\[[^\]]*\]\([^)]*path[^)]*\)`` anchored at the start
of `s`: bracketed label of non-`]` characters, then `](`, then the
parenthesized part containing the path. -/
def matchAfterBang (path : List Char) : List Char → Option Nat
  | '[' :: t =>
    match runUntil ']' t with
    | (lab, ']' :: '(' :: r) =>
      match parenMatch path r with
      | some k => some (lab.length + 3 + k)
      | none => none
    | _ => none
  | _ => none

/-- Matcher for the full `createLinkPattern` regular expression
``!?\[[^\]]*\]\([^)]*path[^)]*\)`` anchored at the start of `s`; the
greedy `!?` first tries to consume a `!`. -/
def linkMatchLen (path : List Char) (s : List Char) : Option Nat :=
  match s with
  | [] => matchAfterBang path []
  | c :: t =>
    if c = '!' then
      match matchAfterBang path t with
      | some k => some (k + 1)
      | none => matchAfterBang path (c :: t)
    else matchAfterBang path (c :: t)

/-- JavaScript `regex.test(content)` for the (freshly created, global)
link pattern: is there a match at any position? -/
def testScan (path : List Char) : List Char → Bool
  | [] => (linkMatchLen path []).isSome
  | c :: t => (linkMatchLen path (c :: t)).isSome || testScan path t

theorem parenSuffix_le {path s : List Char} {k : Nat}
    (h : parenSuffix path s = some k) : k ≤ s.length := by
  unfold parenSuffix at h
  split at h
  · rename_i hsw
    split at h
    · rename_i v tail heq
      have happ := runUntil_append_eq ')' (s.drop path.length)
      rw [heq] at happ
      have hlen := congrArg List.length happ
      simp only [List.length_append, List.length_cons,
        List.length_drop] at hlen
      have h3 := startsWithL_length_le hsw
      simp only [Option.some.injEq] at h
      omega
    · cases h
  · cases h

theorem parenTryAux_le {path s : List Char} :
    ∀ u k, u ≤ s.length → parenTryAux path s u = some k → k ≤ s.length := by
  intro u
  induction u with
  | zero => intro k _ h; exact parenSuffix_le h
  | succ u ih =>
    intro k hu h
    rw [parenTryAux] at h
    split at h
    · rename_i k2 heq
      have := parenSuffix_le heq
      simp only [Option.some.injEq] at h
      have hd : (s.drop (u + 1)).length = s.length - (u + 1) := by simp
      omega
    · exact ih k (by omega) h

theorem parenMatch_le {path s : List Char} {k : Nat}
    (h : parenMatch path s = some k) : k ≤ s.length :=
  parenTryAux_le _ k (runUntil_fst_length_le ')' s) h

theorem matchAfterBang_le {path s : List Char} {k : Nat}
    (h : matchAfterBang path s = some k) : 1 ≤ k ∧ k ≤ s.length := by
  unfold matchAfterBang at h
  split at h
  · rename_i t
    split at h
    · rename_i lab r heq
      split at h
      · rename_i k2 hpm
        have hk2 := parenMatch_le hpm
        have happ := runUntil_append_eq ']' t
        rw [heq] at happ
        have hlen := congrArg List.length happ
        simp only [List.length_append, List.length_cons] at hlen
        simp only [Option.some.injEq] at h
        simp only [List.length_cons]
        omega
      · cases h
    · cases h
  · cases h

theorem linkMatchLen_le {path s : List Char} {k : Nat}
    (h : linkMatchLen path s = some k) : 1 ≤ k ∧ k ≤ s.length := by
  unfold linkMatchLen at h
  split at h
  · exact matchAfterBang_le h
  · rename_i c t
    split at h
    · split at h
      · rename_i k2 heq
        have := matchAfterBang_le heq
        simp only [Option.some.injEq] at h
        simp only [List.length_cons]
        omega
      · exact matchAfterBang_le h
    · exact matchAfterBang_le h

/-- Fuelled scan for the global `String.replace(regex, fn)`: find the
leftmost match, substitute `f` of the matched text, continue after the
match.  The fuel only bounds the recursion; since every match consumes
at least one character (`linkMatchLen_le`), fuel `s.length` is always
sufficient (`replaceScanF_fuel_eq`). -/
def replaceScanF (path : List Char) (f : List Char → List Char) :
    Nat → List Char → List Char
  | _, [] => []
  | 0, s => s
  | fuel + 1, c :: t =>
    match linkMatchLen path (c :: t) with
    | some k =>
      f ((c :: t).take k) ++ replaceScanF path f fuel ((c :: t).drop k)
    | none => c :: replaceScanF path f fuel t

theorem replaceScanF_fuel_eq (path : List Char) (f : List Char → List Char) :
    ∀ (fuel1 : Nat) (fuel2 : Nat) (s : List Char),
      s.length ≤ fuel1 → s.length ≤ fuel2 →
        replaceScanF path f fuel1 s = replaceScanF path f fuel2 s := by
  intro fuel1
  induction fuel1 with
  | zero =>
    intro fuel2 s h1 _
    have : s = [] := by
      cases s with
      | nil => rfl
      | cons c t => simp at h1
    subst this
    cases fuel2 <;> rfl
  | succ a ih =>
    intro fuel2 s h1 h2
    cases s with
    | nil => cases fuel2 <;> rfl
    | cons c t =>
      cases fuel2 with
      | zero => simp at h2
      | succ b =>
        cases hm : linkMatchLen path (c :: t) with
        | some k =>
          have hk := linkMatchLen_le hm
          have hd : ((c :: t).drop k).length = t.length + 1 - k := by
            simp
          simp only [List.length_cons] at h1 h2 hk
          simp only [replaceScanF, hm]
          rw [ih b ((c :: t).drop k) (by omega) (by omega)]
        | none =>
          simp only [List.length_cons] at h1 h2
          simp only [replaceScanF, hm]
          rw [ih b t (by omega) (by omega)]

/-- JavaScript global `String.replace(regex, fn)`. -/
def replaceScan (path : List Char) (f : List Char → List Char)
    (s : List Char) : List Char :=
  replaceScanF path f s.length s

end LinkRegex

/-- Case-insensitive test of `/\.(png|jpg|jpeg|gif|webp|svg|bmp)$/i` on
the local path. -/
def isRasterPath (path : List Char) : Bool :=
  let low := path.map Char.toLower
  (["png", "jpg", "jpeg", "gif", "webp", "svg", "bmp"].map String.data).any
    (fun e => startsWithL ('.' :: e).reverse low.reverse)

/-- Matcher for ``!{0,1}\[(.*?)\]`` anchored at the given position; the
captured group (lazy: up to the first `]`, `.` excluding line
terminators). -/
def mdAltAt (s : List Char) : Option (List Char) :=
  match s with
  | [] => none
  | c :: t =>
    if c = '!' then
      match t with
      | '[' :: r => Option.map Prod.fst (StringUtils.lazyBrackSplit r)
      | _ => none
    else if c = '[' then Option.map Prod.fst (StringUtils.lazyBrackSplit t)
    else none

/-- Leftmost match of `match.match(/!{0,1}\[(.*?)\]/)`. -/
def mdAlt : List Char → Option (List Char)
  | [] => none
  | c :: t =>
    match mdAltAt (c :: t) with
    | some g => some g
    | none => mdAlt t

/-- Lazy scan for ``(.*?)]]``: characters before the first `]]`, `.`
excluding line terminators. -/
def lazyToWiki : List Char → Option (List Char)
  | [] => none
  | [_] => none
  | c :: d :: t =>
    if c = ']' ∧ d = ']' then some []
    else if lineTerm c then none
    else
      match lazyToWiki (d :: t) with
      | some g => some (c :: g)
      | none => none

/-- Leftmost match of `match.match(/\|(.*?)]]/)`. -/
def wikiAlt : List Char → Option (List Char)
  | [] => none
  | c :: t =>
    if c = '|' then
      match lazyToWiki t with
      | some g => some g
      | none => wikiAlt t
    else wikiAlt t

/-- The replacement callback of `LinkReplaceProcessor.process`: decide
the image marker from the matched text (or a raster extension for wiki
links), extract the alt text (markdown alt, overridden by a wiki
alias), and build `` `${marker}[${altText}](${remoteUrl})` ``. -/
def rewriteCallback (localPath remoteUrl : List Char) (m : List Char) :
    List Char :=
  let isImageContext :=
    startsWithL ['!'] m || (startsWithL ['[', '['] m && isRasterPath localPath)
  let alt1 := match mdAlt m with | some g => g | none => localPath
  let alt2 := match wikiAlt m with | some g => g | none => alt1
  (if isImageContext then ['!'] else [])
    ++ '[' :: (alt2 ++ ']' :: '(' :: (remoteUrl ++ [')']))

namespace LinkReplaceProcessor

/-- Embedding of `LinkReplaceProcessor.process(editor, localPath,
remoteUrl)` (src/unnamed/part_004): the editor buffer is the `doc`
string; returns the replaced-flag and the resulting buffer.  If the
pattern does not match, or the global replacement leaves the content
unchanged, the buffer is untouched and `false` is returned. -/
def process (doc localPath remoteUrl : String) : Bool × String :=
  let content := doc.data
  if LinkRegex.testScan localPath.data content = false then (false, doc)
  else
    let newContent :=
      LinkRegex.replaceScan localPath.data
        (rewriteCallback localPath.data remoteUrl.data) content
    if newContent = content then (false, doc)
    else (true, String.mk newContent)

end LinkReplaceProcessor

/-- C4: corrected behaviour of the link rewrite.  When no reference
matches the old path the document is unchanged and `false` is returned,
as claimed; but the pattern is built with the global flag and
`content.replace` therefore rewrites **every** structural match, not
only the first: with two matching references both are rewritten. -/
theorem claim_C4_linkReplace :
    (∀ doc old new : String,
        LinkRegex.testScan old.data doc.data = false →
          LinkReplaceProcessor.process doc old new = (false, doc))
      ∧ LinkReplaceProcessor.process "![a](p.png) ![b](p.png)" "p.png" "u"
          = (true, "![a](u) ![b](u)") := by
  constructor
  · intro doc old new h
    unfold LinkReplaceProcessor.process
    rw [if_pos h]
  · decide

/-- C4 witness: the not-found clause applied at a concrete document. -/
theorem claim_C4_witness :
    LinkReplaceProcessor.process "no links here" "p.png" "u"
      = (false, "no links here") :=
  claim_C4_linkReplace.1 "no links here" "p.png" "u" (by decide)

/-- C4 counterexample: the claim says the rewrite replaces exactly the
first structural match and leaves all later matching references
untouched; on a document with two matching references the code rewrites
both, so the old path no longer occurs at all in the result. -/
theorem claim_C4_counterexample :
    LinkReplaceProcessor.process "![a](p.png) ![b](p.png)" "p.png" "u"
        = (true, "![a](u) ![b](u)")
      ∧ listContains ("![a](u) ![b](u)" : String).data
          ("p.png" : String).data = false := by
  refine ⟨by decide, by decide⟩

/-- C6: round trip of the link rewrite on a document containing
`![alt](local/path.png)`: the rewrite succeeds, the result contains
`![alt](https://cdn/x.png)` and no longer contains `local/path.png`,
and a second rewrite with the same old path returns not-found and
leaves the document unchanged. -/
theorem claim_C6_rewrite_roundtrip :
    LinkReplaceProcessor.process "before\n![alt](local/path.png)\nafter"
        "local/path.png" "https://cdn/x.png"
        = (true, "before\n![alt](https://cdn/x.png)\nafter")
      ∧ listContains
          ("before\n![alt](https://cdn/x.png)\nafter" : String).data
          ("![alt](https://cdn/x.png)" : String).data = true
      ∧ listContains
          ("before\n![alt](https://cdn/x.png)\nafter" : String).data
          ("local/path.png" : String).data = false
      ∧ LinkReplaceProcessor.process
          "before\n![alt](https://cdn/x.png)\nafter" "local/path.png"
          "https://cdn/x.png"
          = (false, "before\n![alt](https://cdn/x.png)\nafter") := by
  refine ⟨by decide, by decide, by decide, by decide⟩

/-! ### src/repository/localRepository.ts — `LocalRepository.save` -/

/-- The collision candidate
`` `${attachmentFolder}/${baseName}_${counter}${ext ? `.${ext}` : ""}` ``
built in `LocalRepository.save`'s while loop (base name and extension
recomputed from `fileName` each iteration via `/\.([^/.]+)$/`). -/
def candidatePath (folder fileName : List Char) (k : Nat) : List Char :=
  (folder ++ '/' :: ((extSplit fileName).1 ++ ['_']))
    ++ ((Nat.repr k).data
      ++ (if (extSplit fileName).2 = [] then []
          else '.' :: (extSplit fileName).2))

/-- The while loop of `LocalRepository.save`: check the candidate for
the current counter against the existing files, increment on collision.
The fuel only bounds the iteration; `fs.length + 1` steps always reach
a free candidate (`claim_C3` below). -/
def saveAux (fs : List (List Char)) (folder fileName : List Char) :
    Nat → Nat → List Char
  | 0, k => candidatePath folder fileName k
  | fuel + 1, k =>
    if candidatePath folder fileName k ∈ fs then
      saveAux fs folder fileName fuel (k + 1)
    else candidatePath folder fileName k

namespace LocalRepository

/-- Embedding of `LocalRepository.save(arrayBuffer, fileName,
currentFile)`: `fs` is the set of existing vault paths
(`vault.adapter.exists`), `folder` the resolved attachment folder.  The
written path is `folder/fileName` if free, else the first free
numbered candidate starting from counter 1. -/
def save (fs : List (List Char)) (folder fileName : List Char) :
    List Char :=
  if folder ++ '/' :: fileName ∈ fs then
    saveAux fs folder fileName (fs.length + 1) 1
  else folder ++ '/' :: fileName

end LocalRepository

theorem candidatePath_inj {folder fileName : List Char} {j k : Nat}
    (h : candidatePath folder fileName j = candidatePath folder fileName k) :
    j = k := by
  unfold candidatePath at h
  have h1 := List.append_cancel_left h
  have h2 := List.append_cancel_right h1
  exact repr_data_injective h2

theorem exists_free_candidate (fs : List (List Char))
    (folder fileName : List Char) :
    ∃ k, 1 ≤ k ∧ k ≤ fs.length + 1
      ∧ candidatePath folder fileName k ∉ fs := by
  by_contra hcon
  push_neg at hcon
  have hinj : Set.InjOn (candidatePath folder fileName)
      ↑(Finset.Icc 1 (fs.length + 1)) :=
    fun a _ b _ hab => candidatePath_inj hab
  have hsub : (Finset.Icc 1 (fs.length + 1)).image
      (candidatePath folder fileName) ⊆ fs.toFinset := by
    intro x hx
    simp only [Finset.mem_image] at hx
    obtain ⟨k, hk, rfl⟩ := hx
    rw [List.mem_toFinset]
    exact hcon k (Finset.mem_Icc.mp hk).1 (Finset.mem_Icc.mp hk).2
  have hcard := Finset.card_le_card hsub
  rw [Finset.card_image_of_injOn hinj, Nat.card_Icc] at hcard
  have := fs.toFinset_card_le
  omega

theorem saveAux_spec (fs : List (List Char)) (folder fileName : List Char) :
    ∀ (fuel k0 : Nat),
      (∃ j, k0 ≤ j ∧ j < k0 + fuel
          ∧ candidatePath folder fileName j ∉ fs) →
        saveAux fs folder fileName fuel k0 ∉ fs
        ∧ ∃ j, k0 ≤ j
            ∧ saveAux fs folder fileName fuel k0
                = candidatePath folder fileName j
            ∧ ∀ i, k0 ≤ i → i < j → candidatePath folder fileName i ∈ fs := by
  intro fuel
  induction fuel with
  | zero =>
    intro k0 hex
    obtain ⟨j, hj1, hj2, _⟩ := hex
    omega
  | succ fuel ih =>
    intro k0 hex
    obtain ⟨j, hj1, hj2, hj3⟩ := hex
    rw [saveAux]
    by_cases hk : candidatePath folder fileName k0 ∈ fs
    · rw [if_pos hk]
      have hne : j ≠ k0 := fun he => (he ▸ hj3) hk
      obtain ⟨hfree, j2, hj2a, hj2b, hj2c⟩ :=
        ih (k0 + 1) ⟨j, by omega, by omega, hj3⟩
      refine ⟨hfree, j2, by omega, hj2b, ?_⟩
      intro i hi1 hi2
      by_cases hi0 : i = k0
      · rw [hi0]; exact hk
      · exact hj2c i (by omega) hi2
    · rw [if_neg hk]
      exact ⟨hk, k0, Nat.le_refl _, rfl, fun i h1 h2 => by omega⟩

/-- C3: `LocalRepository.save` never returns an existing path: if
`folder/fileName` is free it is used as is, otherwise the numbered
candidates `base_1.ext, base_2.ext, …` are tried in order and the first
free one is returned (all earlier ones exist); in particular with
`att/image.png` and `att/image_1.png` both existing, saving `image.png`
yields `att/image_2.png`. -/
theorem claim_C3_save_no_overwrite :
    (∀ (fs : List (List Char)) (folder fileName : List Char),
        LocalRepository.save fs folder fileName ∉ fs)
      ∧ (∀ (fs : List (List Char)) (folder fileName : List Char),
          folder ++ '/' :: fileName ∈ fs →
            ∃ k, 1 ≤ k
              ∧ LocalRepository.save fs folder fileName
                  = candidatePath folder fileName k
              ∧ ∀ i, 1 ≤ i → i < k → candidatePath folder fileName i ∈ fs)
      ∧ LocalRepository.save
          [("att/image.png" : String).data, ("att/image_1.png" : String).data]
          ("att" : String).data ("image.png" : String).data
          = ("att/image_2.png" : String).data := by
  have hmain : ∀ (fs : List (List Char)) (folder fileName : List Char),
      folder ++ '/' :: fileName ∈ fs →
        saveAux fs folder fileName (fs.length + 1) 1 ∉ fs
        ∧ ∃ k, 1 ≤ k
            ∧ saveAux fs folder fileName (fs.length + 1) 1
                = candidatePath folder fileName k
            ∧ ∀ i, 1 ≤ i → i < k → candidatePath folder fileName i ∈ fs := by
    intro fs folder fileName _
    obtain ⟨k, hk1, hk2, hk3⟩ := exists_free_candidate fs folder fileName
    obtain ⟨hfree, j, hj1, hj2, hj3⟩ :=
      saveAux_spec fs folder fileName (fs.length + 1) 1
        ⟨k, hk1, by omega, hk3⟩
    exact ⟨hfree, j, hj1, hj2, hj3⟩
  refine ⟨?_, ?_, by decide⟩
  · intro fs folder fileName
    unfold LocalRepository.save
    split
    · rename_i hmem
      exact (hmain fs folder fileName hmem).1
    · rename_i hmem
      exact hmem
  · intro fs folder fileName hmem
    unfold LocalRepository.save
    rw [if_pos hmem]
    exact (hmain fs folder fileName hmem).2

/-- C3 witness: the first-free-candidate clause at a concrete file
set. -/
theorem claim_C3_witness :
    ∃ k, 1 ≤ k
      ∧ LocalRepository.save [("a/f.png" : String).data]
          ("a" : String).data ("f.png" : String).data
          = candidatePath ("a" : String).data ("f.png" : String).data k
      ∧ ∀ i, 1 ≤ i → i < k →
          candidatePath ("a" : String).data ("f.png" : String).data i
            ∈ [("a/f.png" : String).data] :=
  claim_C3_save_no_overwrite.2.1 [("a/f.png" : String).data]
    ("a" : String).data ("f.png" : String).data (by decide)

/-! ### src/handler/pasteHandler.ts — `PasteHandler.processImageWorkflow` -/

/-- The plugin settings fields the workflow reads. -/
structure PluginSettings where
  enableUpload : Bool
  deleteLocalAfterUpload : Bool
  preserveOriginalName : Bool
deriving DecidableEq

/-- Observable actions of one workflow run, in execution order. -/
inductive WfEvent where
  | savedLocal (path : String)
  | insertedLink (link : String)
  | uploadDone (ok : Bool)
  | rewriteDone (ok : Bool)
  | deletedLocal (path : String)
deriving DecidableEq

/-- Final state of one workflow run: editor buffer, existing vault
paths, and the event trace. -/
structure WfOut where
  doc : String
  files : List String
  events : List WfEvent
deriving DecidableEq

namespace StringUtils

/-- Embedding of `StringUtils.formatImageLink(url, alt)`:
`` `![${alt}](${url})` ``. -/
def formatImageLink (url alt : String) : String :=
  String.mk ('!' :: '[' :: (alt.data ++ ']' :: '(' :: (url.data ++ [')'])))

end StringUtils

namespace PasteHandler

/-- The collision-resolved local path produced by step 2 of the
workflow. -/
def localPathOf (files : List String) (folder fileName : String) : String :=
  String.mk
    (LocalRepository.save (files.map String.data) folder.data fileName.data)

/-- Embedding of `PasteHandler.processImageWorkflow` after validation
and transcoding (which touch neither the editor nor the vault): save to
the local repository (step 2), insert the local image link at the cursor
(step 3, `replaceSelection(localLink + "\n")`), then, when upload is
enabled, consult the remote repository's result `remote` (the injected
collaborator); on `result.success && result.url` rewrite the link
(step 5) and, only if it was replaced and `deleteLocalAfterUpload` is
set, delete the local file (step 6).  `urlTruthy` is the JavaScript
truthiness of `result.url` in `result.success && result.url` (absent or
empty string is falsy). -/
def urlTruthy : Option String → Bool
  | some u => !(u = "")
  | none => false

def processImageWorkflow (settings : PluginSettings) (files : List String)
    (doc : String) (folder fileName : String)
    (remote : MediaUploadResult) : WfOut :=
  let localPath := localPathOf files folder fileName
  let files1 := localPath :: files
  let localLink := StringUtils.formatImageLink localPath ""
  let doc1 := String.mk (doc.data ++ localLink.data ++ ['\n'])
  let ev1 := [WfEvent.savedLocal localPath, WfEvent.insertedLink localLink]
  if settings.enableUpload = true then
    if remote.success = true ∧ urlTruthy remote.url = true then
      let pr := LinkReplaceProcessor.process doc1 localPath
        (remote.url.getD "")
      if pr.1 = true then
        if settings.deleteLocalAfterUpload = true then
          { doc := pr.2, files := files1.erase localPath,
            events := ev1 ++ [WfEvent.uploadDone true,
              WfEvent.rewriteDone true, WfEvent.deletedLocal localPath] }
        else
          { doc := pr.2, files := files1,
            events := ev1 ++ [WfEvent.uploadDone true,
              WfEvent.rewriteDone true] }
      else
        { doc := pr.2, files := files1,
          events := ev1 ++ [WfEvent.uploadDone true,
            WfEvent.rewriteDone false] }
    else
      { doc := doc1, files := files1,
        events := ev1 ++ [WfEvent.uploadDone false] }
  else
    { doc := doc1, files := files1, events := ev1 }

end PasteHandler

/-- C1: with upload enabled and delete-local-after-upload set, a local
deletion happens only after the upload succeeded and the link rewrite
succeeded — every deletion event is immediately preceded in the trace
by a successful-rewrite event and implies `remote.success`; and when
the rewrite fails, no deletion happens and the saved local file is
still present at the end. -/
theorem claim_C1_delete_only_after_rewrite (settings : PluginSettings)
    (files : List String) (doc folder fileName : String)
    (remote : MediaUploadResult)
    (hU : settings.enableUpload = true)
    (hD : settings.deleteLocalAfterUpload = true) :
    (∀ p, WfEvent.deletedLocal p ∈
        (PasteHandler.processImageWorkflow settings files doc folder
          fileName remote).events →
      remote.success = true
        ∧ ∃ l1 l2,
            (PasteHandler.processImageWorkflow settings files doc folder
              fileName remote).events
              = l1 ++ WfEvent.rewriteDone true
                  :: WfEvent.deletedLocal p :: l2)
      ∧ (WfEvent.rewriteDone false ∈
          (PasteHandler.processImageWorkflow settings files doc folder
            fileName remote).events →
        (∀ p, WfEvent.deletedLocal p ∉
            (PasteHandler.processImageWorkflow settings files doc folder
              fileName remote).events)
          ∧ PasteHandler.localPathOf files folder fileName ∈
              (PasteHandler.processImageWorkflow settings files doc folder
                fileName remote).files) := by
  unfold PasteHandler.processImageWorkflow
  rw [if_pos hU]
  by_cases hcond :
      remote.success = true ∧ PasteHandler.urlTruthy remote.url = true
  · rw [if_pos hcond]
    dsimp only
    by_cases hpr : (LinkReplaceProcessor.process
        (String.mk (doc.data
          ++ (StringUtils.formatImageLink
            (PasteHandler.localPathOf files folder fileName) "").data
          ++ ['\n']))
        (PasteHandler.localPathOf files folder fileName)
        (remote.url.getD "")).1 = true
    · rw [if_pos hpr, if_pos hD]
      constructor
      · intro p hp
        simp only [List.cons_append, List.nil_append, List.mem_cons,
          List.not_mem_nil, or_false] at hp
        rcases hp with h | h | h | h | h5
        · exact absurd h (by simp)
        · exact absurd h (by simp)
        · exact absurd h (by simp)
        · exact absurd h (by simp)
        · have hp5 : p = PasteHandler.localPathOf files folder fileName := by
            simpa using h5
          subst hp5
          exact ⟨hcond.1,
            [WfEvent.savedLocal (PasteHandler.localPathOf files folder fileName),
              WfEvent.insertedLink (StringUtils.formatImageLink
                (PasteHandler.localPathOf files folder fileName) ""),
              WfEvent.uploadDone true], [], by rfl⟩
      · intro hr
        simp at hr
    · rw [if_neg hpr]
      constructor
      · intro p hp
        simp at hp
      · intro _
        refine ⟨?_, ?_⟩
        · intro p hp
          simp at hp
        · simp
  · rw [if_neg hcond]
    constructor
    · intro p hp
      simp at hp
    · intro hr
      simp at hr

/-- C1 witness: on a concrete run with a successful upload and rewrite,
the deletion event is indeed preceded by the successful rewrite. -/
theorem claim_C1_witness :
    (⟨true, some "u", none, none⟩ : MediaUploadResult).success = true
      ∧ ∃ l1 l2,
          (PasteHandler.processImageWorkflow ⟨true, true, false⟩ [] "" "a"
            "f.png" ⟨true, some "u", none, none⟩).events
            = l1 ++ WfEvent.rewriteDone true
                :: WfEvent.deletedLocal "a/f.png" :: l2 :=
  (claim_C1_delete_only_after_rewrite ⟨true, true, false⟩ [] "" "a" "f.png"
    ⟨true, some "u", none, none⟩ rfl rfl).1 "a/f.png" (by decide)

/-- C2: with upload enabled, when the remote upload reports failure the
final buffer is exactly the post-insertion buffer (no further document
mutation), it still contains the inserted local link, the saved local
file is still present, and no deletion event occurred. -/
theorem claim_C2_upload_failure_keeps_local (settings : PluginSettings)
    (files : List String) (doc folder fileName : String)
    (remote : MediaUploadResult)
    (hU : settings.enableUpload = true)
    (hF : remote.success = false) :
    (PasteHandler.processImageWorkflow settings files doc folder fileName
        remote).doc
        = String.mk (doc.data
            ++ (StringUtils.formatImageLink
              (PasteHandler.localPathOf files folder fileName) "").data
            ++ ['\n'])
      ∧ listContains
          (PasteHandler.processImageWorkflow settings files doc folder
            fileName remote).doc.data
          (StringUtils.formatImageLink
            (PasteHandler.localPathOf files folder fileName) "").data
          = true
      ∧ PasteHandler.localPathOf files folder fileName ∈
          (PasteHandler.processImageWorkflow settings files doc folder
            fileName remote).files
      ∧ ∀ p, WfEvent.deletedLocal p ∉
          (PasteHandler.processImageWorkflow settings files doc folder
            fileName remote).events := by
  have hout : PasteHandler.processImageWorkflow settings files doc folder
      fileName remote
      = { doc := String.mk (doc.data
            ++ (StringUtils.formatImageLink
              (PasteHandler.localPathOf files folder fileName) "").data
            ++ ['\n']),
          files := PasteHandler.localPathOf files folder fileName :: files,
          events := [WfEvent.savedLocal
              (PasteHandler.localPathOf files folder fileName),
            WfEvent.insertedLink (StringUtils.formatImageLink
              (PasteHandler.localPathOf files folder fileName) ""),
            WfEvent.uploadDone false] } := by
    unfold PasteHandler.processImageWorkflow
    rw [if_pos hU]
    rw [if_neg (by simp [hF])]
    rfl
  rw [hout]
  refine ⟨rfl, ?_, by simp, ?_⟩
  · exact listContains_append_middle doc.data _ ['\n']
  · intro p hp
    simp at hp

/-- C2 witness: the preserved state on a concrete failing upload. -/
theorem claim_C2_witness :
    (PasteHandler.processImageWorkflow ⟨true, true, false⟩ [] "" "a" "f.png"
        ⟨false, none, none, some "err"⟩).doc
        = String.mk (("" : String).data
            ++ (StringUtils.formatImageLink
              (PasteHandler.localPathOf [] "a" "f.png") "").data
            ++ ['\n'])
      ∧ listContains
          (PasteHandler.processImageWorkflow ⟨true, true, false⟩ [] "" "a"
            "f.png" ⟨false, none, none, some "err"⟩).doc.data
          (StringUtils.formatImageLink
            (PasteHandler.localPathOf [] "a" "f.png") "").data = true
      ∧ PasteHandler.localPathOf [] "a" "f.png" ∈
          (PasteHandler.processImageWorkflow ⟨true, true, false⟩ [] "" "a"
            "f.png" ⟨false, none, none, some "err"⟩).files
      ∧ ∀ p, WfEvent.deletedLocal p ∉
          (PasteHandler.processImageWorkflow ⟨true, true, false⟩ [] "" "a"
            "f.png" ⟨false, none, none, some "err"⟩).events :=
  claim_C2_upload_failure_keeps_local ⟨true, true, false⟩ [] "" "a" "f.png"
    ⟨false, none, none, some "err"⟩ rfl rfl

/-- C9 witness: the fail-closed result at a concrete unconfigured
setting. -/
theorem claim_C9_witness :
    MediaRepository.upload ⟨"e", "", "sk", "b", "auto"⟩ ⟨"up", "https://cdn"⟩
        (fun _ _ => none) "f.png" "webp" ⟨2025, 1, 2⟩
      = (⟨false, none, none,
          some "Storage adapter is not configured"⟩, false) :=
  claim_C9_upload_fails_closed.1 ⟨"e", "", "sk", "b", "auto"⟩
    ⟨"up", "https://cdn"⟩ (fun _ _ => none) "f.png" "webp" ⟨2025, 1, 2⟩
    (Or.inl rfl)

end OneStepUploader
